import Mathlib

/-!
Verification development for the tabular-data profiling / cleaning / aggregation
core of the repository (recipes/csv_processing/csv_pipeline.py, plus the output
adapter save_dataset of recipes/api_ingestion/api_to_dataset.py).

Rows are Python dicts mapping column names to strings.  A dict is modelled as an
insertion-ordered association list with unique keys; dict update keeps the
position of an existing key and appends a fresh key at the end, which is exactly
what the model functions below implement.

Python builtins are modelled as follows:
  * str.strip            -> pyStrip (drops leading/trailing whitespace chars);
  * float(s)             -> pyFloat? (decimal literal with optional sign,
                            fraction and exponent, surrounded by optional
                            whitespace; returns the exact rational value;
                            the special forms inf/nan and digit underscores
                            are outside the model, no claim depends on them);
  * round(x, n)          -> pyRound (round half to even, exact over ℚ);
  * s.replace(",", "")   -> removeCommas.
Numbers are exact rationals; no claim under verification mentions a quantity
whose float rounding error is observable at the spec level.
-/

namespace DataPipeline

/-- Whitespace test used by the model of Python str.strip. -/
def wsChar (c : Char) : Bool := c = ' ' || c = '\t' || c = '\n' || c = '\r'

/-- Model of Python str.strip(): drop leading and trailing whitespace. -/
def pyStrip (s : String) : String :=
  String.mk (((s.toList.dropWhile wsChar).reverse.dropWhile wsChar).reverse)

/-- Trimming from the right: the reversed drop of the reversed list
(the right half of pyStrip, named for the idempotence proof). -/
def trimRight (l : List Char) : List Char :=
  (List.dropWhile wsChar l.reverse).reverse

/-- Value of a list of decimal digit characters. -/
def digitsVal (l : List Char) : Nat :=
  l.foldl (fun a c => 10 * a + (c.toNat - 48)) 0

/-- Model of Python float(s) on decimal literals: optional surrounding
whitespace, optional sign, significand `digits[.digits]` or `.digits`,
optional exponent `e/E [sign] digits`.  Returns the exact rational value,
or none when the string is not a valid literal. -/
def pyFloat? (s : String) : Option Rat :=
  let cs := (pyStrip s).toList
  let sgncs : Rat × List Char :=
    match cs with
    | '+' :: r => (1, r)
    | '-' :: r => (-1, r)
    | _ => (1, cs)
  let ipr := sgncs.2.span Char.isDigit
  let fpr : Option (List Char) × List Char :=
    match ipr.2 with
    | '.' :: r =>
      let dr := r.span Char.isDigit
      (some dr.1, dr.2)
    | _ => (none, ipr.2)
  if ipr.1.isEmpty && (fpr.1.getD []).isEmpty then none
  else
    let fd := fpr.1.getD []
    let mant : Rat :=
      sgncs.1 * ((digitsVal ipr.1 : Rat) + (digitsVal fd : Rat) / (10 : Rat) ^ fd.length)
    match fpr.2 with
    | [] => some mant
    | e :: r =>
      if e == 'e' || e == 'E' then
        let esgn : Int × List Char :=
          match r with
          | '+' :: r2 => (1, r2)
          | '-' :: r2 => (-1, r2)
          | _ => (1, r)
        let edr := esgn.2.span Char.isDigit
        if edr.1.isEmpty || !edr.2.isEmpty then none
        else some (mant * (10 : Rat) ^ (esgn.1 * (digitsVal edr.1 : Int)))
      else none

/-- Round a rational to the nearest integer, halves to even
(the rounding Python round uses). -/
def pyRoundInt (x : Rat) : Int :=
  let f := x.floor
  let frac := x - (f : Rat)
  if frac < 1 / 2 then f
  else if 1 / 2 < frac then f + 1
  else if f % 2 = 0 then f else f + 1

/-- Model of Python round(x, d): round half to even at d decimal digits. -/
def pyRound (x : Rat) (d : Nat) : Rat :=
  (pyRoundInt (x * (10 : Rat) ^ d) : Rat) / (10 : Rat) ^ d

/-- Model of v.replace(",", ""): remove every comma. -/
def removeCommas (s : String) : String :=
  String.mk (s.toList.filter (fun c => c ≠ ','))

/-- The filter `if v and v.strip()` of profile_column: a value counts as
non-null when it is non-empty and not whitespace-only. -/
def nonBlank (v : String) : Bool := v ≠ "" && pyStrip v ≠ ""

/-- A row: a Python dict from column name to string value, modelled as an
insertion-ordered association list. -/
abbrev Row := List (String × String)

/-- Dict lookup: row.get(k), none when the key is absent. -/
def getVal? : Row → String → Option String
  | [], _ => none
  | (k0, v) :: rest, k => if k0 = k then some v else getVal? rest k

/-- Dict lookup with default: row.get(k, d). -/
def getValD (r : Row) (k d : String) : String := (getVal? r k).getD d

/-- Dict assignment row[k] = v: update an existing key in place
(keeping its position), or append a fresh key at the end. -/
def setVal : Row → String → String → Row
  | [], k, v => [(k, v)]
  | (k0, v0) :: rest, k, v =>
    if k0 = k then (k0, v) :: rest else (k0, v0) :: setVal rest k v

/-- Lookup with default in a string-to-string mapping (m.get(k, d)). -/
def lookupD (m : List (String × String)) (k d : String) : String :=
  match m.lookup k with
  | some v => v
  | none => d

/-- Type label a Column Profile assigns to a column. -/
inductive ColType
  | numeric
  | categorical
  deriving DecidableEq, Repr

/-- Column Profile: the statistics profile_column computes.  The fields
median, stdev and top_5 of the source are not modelled: no claim under
verification mentions them, and stdev is a square root, which has no exact
rational value.  All other fields follow the source. -/
structure ColumnProfile where
  column : String
  total_rows : Nat
  non_null : Nat
  null_count : Nat
  null_pct : Rat
  unique_count : Nat
  type : ColType
  minVal : Option Rat
  maxVal : Option Rat
  mean : Option Rat
  sample : Option (List String)
  deriving DecidableEq, Repr

/-- profile_column of csv_pipeline.py: statistics for a single column. -/
def profile_column (values : List String) (col_name : String) : ColumnProfile :=
  let total := values.length
  let non_empty := values.filter nonBlank
  let null_count := total - non_empty.length
  let numeric_values := non_empty.filterMap (fun v => pyFloat? (removeCommas v))
  let isNumeric : Bool :=
    !numeric_values.isEmpty &&
      decide ((numeric_values.length : Rat) > (non_empty.length : Rat) * 0.5)
  { column := col_name
    total_rows := total
    non_null := non_empty.length
    null_count := null_count
    null_pct := if total = 0 then 0 else pyRound ((null_count : Rat) / (total : Rat) * 100) 1
    unique_count := non_empty.dedup.length
    type := if isNumeric then .numeric else .categorical
    minVal :=
      if isNumeric then
        match numeric_values with
        | [] => none
        | v :: vs => some (vs.foldl min v)
      else none
    maxVal :=
      if isNumeric then
        match numeric_values with
        | [] => none
        | v :: vs => some (vs.foldl max v)
      else none
    mean :=
      if isNumeric then some (pyRound (numeric_values.sum / (numeric_values.length : Rat)) 2)
      else none
    sample := if isNumeric then none else some (non_empty.take 3) }

/-- profile_dataset of csv_pipeline.py, reporting side effects dropped:
one profile_column call per column, a missing key read as "". -/
def profile_dataset (headers : List String) (rows : List Row) :
    List (String × ColumnProfile) :=
  headers.map (fun col => (col, profile_column (rows.map (fun r => getValD r col "")) col))

/-- Strip whitespace from every value of a row (every value is a string
in this model, so the isinstance(str) guard of the source is always true). -/
def stripRow (r : Row) : Row := r.map (fun kv => (kv.1, pyStrip kv.2))

/-- Code-point comparison of characters (Python compares strings by code
point). -/
def charLt (a b : Char) : Bool := a.toNat < b.toNat

/-- Strict lexicographic comparison of character lists. -/
def charListLt : List Char → List Char → Bool
  | _, [] => false
  | [], _ :: _ => true
  | a :: as, b :: bs => charLt a b || (a = b && charListLt as bs)

/-- Python string comparison s1 < s2. -/
def strLt (a b : String) : Bool := charListLt a.toList b.toList

/-- Python string comparison s1 <= s2. -/
def strLe (a b : String) : Bool := strLt a b || a = b

/-- Lexicographic order on (column, value) pairs, the order Python sorted()
uses on the items of a row. -/
def pairLe (a b : String × String) : Bool :=
  strLt a.1 b.1 || (a.1 = b.1 && strLe a.2 b.2)

/-- tuple(sorted(row.items())): the canonical duplicate-detection key.
pairLe is total, transitive and antisymmetric (proved below), so every sorting
algorithm yields the same sorted permutation; insertion sort is used because
the kernel can evaluate it on concrete rows. -/
def sortKeyRow (r : Row) : Row := List.insertionSort (fun a b => pairLe a b = true) r

/-- The duplicate-removal loop of clean_dataset: `seen` holds the canonical
keys already encountered; a row is kept iff its key is fresh. -/
def dedupGo (seen : List Row) : List Row → List Row
  | [] => []
  | r :: rest =>
    let key := sortKeyRow r
    if key ∈ seen then dedupGo seen rest
    else r :: dedupGo (key :: seen) rest

/-- One fill-nulls update on one row: if the (possibly absent) value of col
is empty after stripping, set it to the fill value. -/
def fillRow (col fv : String) (r : Row) : Row :=
  if pyStrip (getValD r col "") = "" then setVal r col fv else r

/-- Drop the configured columns from one row (dict comprehension filter). -/
def dropRow (cols : List String) (r : Row) : Row :=
  r.filter (fun kv => !cols.contains kv.1)

/-- Rename the keys of one row through the mapping; the dict comprehension
inserts keys in iteration order, so a collision keeps the first position
and the last value — exactly the semantics of folding setVal. -/
def renameRow (m : List (String × String)) (r : Row) : Row :=
  r.foldl (fun acc kv => setVal acc (lookupD m kv.1 kv.1) kv.2) []

/-- Cleaning configuration after default resolution: clean_dataset reads each
option with config.get(key, default), so a run of the source is determined by
this fully-resolved record (strip_whitespace and remove_duplicates default to
true, the rest to empty). -/
structure CleanConfig where
  strip_whitespace : Bool
  remove_duplicates : Bool
  fill_nulls : List (String × String)
  drop_columns : List String
  rename_columns : List (String × String)
  deriving DecidableEq, Repr

/-- One entry of the change log clean_dataset prints; the numeric and list
payloads of the f-strings are kept, the surrounding prose is not. -/
inductive ChangeEntry
  | strippedWhitespace
  | removedDuplicates (n : Nat)
  | filledNulls (col : String) (n : Nat) (value : String)
  | droppedColumns (cols : List String)
  | renamedColumns (mapping : List (String × String))
  deriving DecidableEq, Repr

/-- clean_dataset of csv_pipeline.py, also returning the change log it
prints.  The five steps run in the source order — strip whitespace, remove
duplicates, fill nulls, drop columns, rename columns — each on the previous
step output.  The initial `[dict(row) for row in rows]` copy is the identity
on values, so it does not appear here (the heap model below accounts for it).
The headers argument is accepted and, as in the source, never read. -/
def clean_dataset_full (headers : List String) (rows : List Row)
    (config : CleanConfig) : List Row × List ChangeEntry :=
  let s1 := if config.strip_whitespace then rows.map stripRow else rows
  let l1 : List ChangeEntry :=
    if config.strip_whitespace then [.strippedWhitespace] else []
  let u := dedupGo [] s1
  let s2 := if config.remove_duplicates then u else s1
  let l2 :=
    if config.remove_duplicates then
      if s1.length - u.length > 0 then l1 ++ [.removedDuplicates (s1.length - u.length)]
      else l1
    else l1
  let s3l3 := config.fill_nulls.foldl
    (fun (st : List Row × List ChangeEntry) cf =>
      ((st.1.map (fillRow cf.1 cf.2)),
       if st.1.countP (fun r => pyStrip (getValD r cf.1 "") = "") > 0
       then st.2 ++ [.filledNulls cf.1
          (st.1.countP (fun r => pyStrip (getValD r cf.1 "") = "")) cf.2]
       else st.2))
    (s2, l2)
  let s4 :=
    if config.drop_columns ≠ [] then s3l3.1.map (dropRow config.drop_columns) else s3l3.1
  let l4 :=
    if config.drop_columns ≠ [] then s3l3.2 ++ [.droppedColumns config.drop_columns]
    else s3l3.2
  let s5 :=
    if config.rename_columns ≠ [] then s4.map (renameRow config.rename_columns) else s4
  let l5 :=
    if config.rename_columns ≠ [] then l4 ++ [.renamedColumns config.rename_columns]
    else l4
  (s5, l5)

/-- The rows clean_dataset returns (the change log is only printed). -/
def clean_dataset (headers : List String) (rows : List Row)
    (config : CleanConfig) : List Row :=
  (clean_dataset_full headers rows config).1

/-- The change log clean_dataset prints. -/
def clean_log (headers : List String) (rows : List Row)
    (config : CleanConfig) : List ChangeEntry :=
  (clean_dataset_full headers rows config).2

/-- Standalone strip step (the first block of clean_dataset). -/
def stripStep (rows : List Row) : List Row := rows.map stripRow

/-- Standalone duplicate-removal step (the second block of clean_dataset). -/
def dedupStep (rows : List Row) : List Row := dedupGo [] rows

/-- Standalone fill-nulls step (the third block of clean_dataset): the
configured columns are processed in order, each pass over all rows. -/
def fillStep (fills : List (String × String)) (rows : List Row) : List Row :=
  fills.foldl (fun rs cf => rs.map (fillRow cf.1 cf.2)) rows

/-- Standalone drop-columns step (the fourth block of clean_dataset). -/
def dropStep (cols : List String) (rows : List Row) : List Row :=
  if cols ≠ [] then rows.map (dropRow cols) else rows

/-- Standalone rename-columns step (the fifth block of clean_dataset). -/
def renameStep (m : List (String × String)) (rows : List Row) : List Row :=
  if m ≠ [] then rows.map (renameRow m) else rows

/-- The grouping update of aggregate: groups.setdefault(key, []).append(val) —
append the value to the existing group, keeping the position of the group,
or open a fresh group at the end. -/
def insertGroup : List (String × List Rat) → String → Rat → List (String × List Rat)
  | [], k, v => [(k, [v])]
  | (k0, vs) :: rest, k, v =>
    if k0 = k then (k0, vs ++ [v]) :: rest else (k0, vs) :: insertGroup rest k v

/-- float(row.get(agg_col, 0)): an absent key defaults to the number 0,
a present value is parsed; none on parse failure. -/
def aggParse (r : Row) (agg_col : String) : Option Rat :=
  match getVal? r agg_col with
  | some v => pyFloat? v
  | none => some 0

/-- The grouping loop of aggregate over a list of rows: the key is
row.get(group_by, ""); a row whose value fails to parse is skipped. -/
def groupsFold (group_by agg_col : String)
    (acc : List (String × List Rat)) (rows : List Row) : List (String × List Rat) :=
  rows.foldl
    (fun acc r =>
      match aggParse r agg_col with
      | some v => insertGroup acc (getValD r group_by "") v
      | none => acc)
    acc

/-- The reducer dispatch of aggregate: a dict of the five reducers is built
and looked up with fallback sum; the dict values are all well defined here
because every group holds at least one value. -/
def applyReducer (agg_func : String) (vs : List Rat) : Rat :=
  if agg_func = "sum" then vs.sum
  else if agg_func = "mean" then vs.sum / (vs.length : Rat)
  else if agg_func = "count" then (vs.length : Rat)
  else if agg_func = "min" then
    match vs with
    | [] => 0
    | v :: rest => rest.foldl min v
  else if agg_func = "max" then
    match vs with
    | [] => 0
    | v :: rest => rest.foldl max v
  else vs.sum

/-- One output record of aggregate.  The source emits the dict
`(group_by: key, (agg_func)_(agg_col): rounded value, count: n)`;
the three heterogeneous entries are the three fields here, with aggName
holding the composite key of the middle entry. -/
structure AggRecord where
  key : String
  aggName : String
  value : Rat
  count : Nat
  deriving DecidableEq, Repr

/-- aggregate of csv_pipeline.py: group by one column, reduce another,
groups sorted by key ascending. -/
def aggregate (rows : List Row) (group_by agg_col : String)
    (agg_func : String) : List AggRecord :=
  let groups := groupsFold group_by agg_col [] rows
  let sorted := List.insertionSort (fun a b => strLe a.1 b.1 = true) groups
  sorted.map (fun kvs =>
    { key := kvs.1
      aggName := agg_func ++ "_" ++ agg_col
      value := pyRound (applyReducer agg_func kvs.2) 2
      count := kvs.2.length })

/-- The combined effect of the fill-nulls step on a single row: the configured
columns applied left to right (row independence lets the row/column loops of
the source commute). -/
def fillRowAll (fills : List (String × String)) (r : Row) : Row :=
  fills.foldl (fun acc cf => fillRow cf.1 cf.2 acc) r

/-- The change-log entries the fill-nulls step emits: one entry per configured
column whose pass filled at least one cell, in configuration order. -/
def fillLogOf : List (String × String) → List Row → List ChangeEntry
  | [], _ => []
  | cf :: fills, rows =>
    (if 0 < rows.countP (fun r => pyStrip (getValD r cf.1 "") = "")
     then [ChangeEntry.filledNulls cf.1
        (rows.countP (fun r => pyStrip (getValD r cf.1 "") = "")) cf.2]
     else []) ++
      fillLogOf fills (rows.map (fillRow cf.1 cf.2))

/-- The values that end up in the group of key k: the parse results of the
rows whose group-by value reads as k, in row order. -/
def parsedFor (group_by agg_col k : String) (rows : List Row) : List Rat :=
  (rows.filter (fun r => getValD r group_by "" = k)).filterMap
    (fun r => aggParse r agg_col)

/-- Append newly collected group values to an optional existing group
(helper for the grouping-loop characterisation). -/
def mergeOpt : Option (List Rat) → List Rat → Option (List Rat)
  | none, [] => none
  | none, vs => some vs
  | some xs, vs => some (xs ++ vs)

/-- Does the row hold a value for the column that parses as a number?
(The reading of the claim text; an absent column does not parse.) -/
def contentParses (r : Row) (agg_col : String) : Bool :=
  match getVal? r agg_col with
  | some v => (pyFloat? v).isSome
  | none => false

/-- JSON string escaping of json.dumps with ensure_ascii=False: only the
quote, the backslash and control characters are escaped. -/
def jsonEscapeChar (c : Char) : String :=
  if c = '"' then "\\\""
  else if c = '\\' then "\\\\"
  else if c = '\n' then "\\n"
  else if c = '\t' then "\\t"
  else if c = '\r' then "\\r"
  else if c = '\x08' then "\\b"
  else if c = '\x0c' then "\\f"
  else if c.toNat < 32 then
    "\\u00" ++ String.mk [Nat.digitChar (c.toNat / 16), Nat.digitChar (c.toNat % 16)]
  else String.mk [c]

/-- Escape a whole string for a JSON literal. -/
def jsonEscape (s : String) : String :=
  String.join (s.toList.map jsonEscapeChar)

/-- json.dumps on one flat string-valued record, default separators. -/
def dumpsRecord (r : Row) : String :=
  "\x7b" ++
    String.intercalate ", "
      (r.map (fun kv => "\"" ++ jsonEscape kv.1 ++ "\": \"" ++ jsonEscape kv.2 ++ "\"")) ++
  "\x7d"

/-- json.dump with indent=2 on one record nested one level deep: keys are
indented four spaces and the closing brace two, under the two-space array
element indentation. -/
def dumpsRecordIndent (r : Row) : String :=
  if r = [] then "\x7b\x7d"
  else
    "\x7b\n" ++
      String.intercalate ",\n"
        (r.map (fun kv => "    \"" ++ jsonEscape kv.1 ++ "\": \"" ++ jsonEscape kv.2 ++ "\"")) ++
    "\n  \x7d"

/-- json.dump with indent=2 on a list of records. -/
def dumpsArray (rs : List Row) : String :=
  if rs = [] then "[]"
  else "[\n" ++ String.intercalate ",\n" (rs.map (fun r => "  " ++ dumpsRecordIndent r)) ++ "\n]"

/-- save_dataset of api_to_dataset.py, modelled as the text it writes:
jsonl produces one dumped record per line, json one indented array document,
and any other format selector raises ValueError — here the error branch of
Except.  The filesystem side (open, mkdir) is outside the pure model; what is
kept is the format dispatch and the content each branch serializes. -/
def save_dataset (records : List Row) (format : String) :
    Except String (List String) :=
  if format = "jsonl" then .ok (records.map dumpsRecord)
  else if format = "json" then .ok [dumpsArray records]
  else .error ("Unknown format: " ++ format)

/-!  Heap model of clean_dataset.

The frame claim — the input rows are never mutated — is about Python object
identity, so it is stated against an explicit store: rows live at addresses
of a store of dict objects, `[dict(row) for row in rows]` allocates fresh
cells, the strip and fill steps write those cells in place, duplicate removal
only selects references, and drop/rename allocate fresh dicts.  -/

/-- Allocate a list of fresh cells at the end of the store, returning the new
store and the addresses of the cells. -/
def heapAlloc (store : List Row) (rs : List Row) : List Row × List Nat :=
  (store ++ rs, (List.range rs.length).map (fun i => store.length + i))

/-- Read a store cell (an out-of-range address reads an empty dict; the model
never dereferences one). -/
def heapGet (store : List Row) (a : Nat) : Row := (store.get? a).getD []

/-- The duplicate-removal loop over references: reads the store, selects the
first reference of each canonical key, writes nothing. -/
def dedupRefsGo (store : List Row) (seen : List Row) : List Nat → List Nat
  | [] => []
  | a :: rest =>
    let key := sortKeyRow (heapGet store a)
    if key ∈ seen then dedupRefsGo store seen rest
    else a :: dedupRefsGo store (key :: seen) rest

/-- `[dict(row) for row in rows]`: allocate a fresh copy of every input row. -/
def heapCopy (store : List Row) (refs : List Nat) : List Row × List Nat :=
  heapAlloc store (refs.map (heapGet store))

/-- The strip step on the store: when enabled, rewrite each referenced cell in
place with its stripped row. -/
def heapStrip (b : Bool) (store : List Row) (refs : List Nat) : List Row :=
  if b then refs.foldl (fun st a => st.set a (stripRow (heapGet st a))) store else store

/-- The duplicate-removal step on references: reads only, writes nothing. -/
def heapDedup (b : Bool) (store : List Row) (refs : List Nat) : List Nat :=
  if b then dedupRefsGo store [] refs else refs

/-- The fill-nulls step on the store: for each configured column, rewrite each
referenced cell in place when its value for that column is blank. -/
def heapFill (fills : List (String × String)) (store : List Row)
    (refs : List Nat) : List Row :=
  fills.foldl
    (fun st cf =>
      refs.foldl
        (fun st2 a =>
          let r := heapGet st2 a
          if pyStrip (getValD r cf.1 "") = "" then st2.set a (setVal r cf.1 cf.2) else st2)
        st)
    store

/-- The drop-columns step: when configured, allocate fresh dicts. -/
def heapDrop (cols : List String) (store : List Row) (refs : List Nat) :
    List Row × List Nat :=
  if cols ≠ [] then heapAlloc store (refs.map (fun a => dropRow cols (heapGet store a)))
  else (store, refs)

/-- The rename-columns step: when configured, allocate fresh dicts. -/
def heapRename (m : List (String × String)) (store : List Row) (refs : List Nat) :
    List Row × List Nat :=
  if m ≠ [] then heapAlloc store (refs.map (fun a => renameRow m (heapGet store a)))
  else (store, refs)

/-- clean_dataset on the explicit store: takes the store and the addresses of
the input rows, returns the final store and the addresses of the result rows.
Mirrors the source block by block: the initial copy allocates, strip and fill
mutate the copies in place, dedup selects references, drop and rename build
fresh dicts. -/
def clean_dataset_heap (store : List Row) (refs : List Nat)
    (config : CleanConfig) : List Row × List Nat :=
  let al1 := heapCopy store refs
  let store2 := heapStrip config.strip_whitespace al1.1 al1.2
  let refs2 := heapDedup config.remove_duplicates store2 al1.2
  let store3 := heapFill config.fill_nulls store2 refs2
  let al4 := heapDrop config.drop_columns store3 refs2
  heapRename config.rename_columns al4.1 al4.2

/-- Reference formulation of the duplicate-removal step for the comparison
theorem: scan left to right, keep a row iff no row kept so far has the same
canonical key — i.e. keep exactly the first occurrence of each key. -/
def dedupSpec (rows : List Row) : List Row :=
  rows.foldl
    (fun acc r => if acc.any (fun r0 => sortKeyRow r0 = sortKeyRow r) then acc else acc ++ [r])
    []

/-! ### Helper lemmas: stripping is idempotent -/

theorem dropWhile_wsChar_idem (l : List Char) :
    List.dropWhile wsChar (List.dropWhile wsChar l) = List.dropWhile wsChar l := by
  induction l with
  | nil => rfl
  | cons a l ih =>
    by_cases h : wsChar a
    · simp [List.dropWhile_cons, h, ih]
    · simp [List.dropWhile_cons, h]

theorem dropWhile_head_false {l t : List Char} {a : Char}
    (h : List.dropWhile wsChar l = a :: t) : wsChar a = false := by
  induction l with
  | nil => simp at h
  | cons b l ih =>
    by_cases hb : wsChar b
    · rw [List.dropWhile_cons] at h
      simp [hb] at h
      exact ih h
    · rw [List.dropWhile_cons] at h
      simp [hb] at h
      rw [← h.1]
      simp [hb]

theorem trimRight_prefix (l : List Char) : trimRight l <+: l := by
  have h : List.dropWhile wsChar l.reverse <:+ l.reverse :=
    List.dropWhile_suffix wsChar
  have h2 := (List.reverse_prefix).mpr h
  rwa [List.reverse_reverse] at h2

theorem dropWhile_trimRight_dropWhile (l : List Char) :
    List.dropWhile wsChar (trimRight (List.dropWhile wsChar l)) =
      trimRight (List.dropWhile wsChar l) := by
  cases e : trimRight (List.dropWhile wsChar l) with
  | nil => simp
  | cons a t =>
    have hpre : (a :: t) <+: List.dropWhile wsChar l := e ▸ trimRight_prefix _
    obtain ⟨rest, hrest⟩ := hpre
    have ha : wsChar a = false := dropWhile_head_false (l := l) (by rw [hrest.symm]; rfl)
    simp [List.dropWhile_cons, ha]

theorem trimRight_idem (l : List Char) : trimRight (trimRight l) = trimRight l := by
  unfold trimRight
  rw [List.reverse_reverse, dropWhile_wsChar_idem]

theorem pyStrip_idem (s : String) : pyStrip (pyStrip s) = pyStrip s := by
  show String.mk (trimRight (List.dropWhile wsChar
      (String.toList (String.mk (trimRight (List.dropWhile wsChar s.toList)))))) =
    String.mk (trimRight (List.dropWhile wsChar s.toList))
  have htl : ∀ cs : List Char, String.toList (String.mk cs) = cs := fun _ => rfl
  rw [htl, dropWhile_trimRight_dropWhile, trimRight_idem]

/-! ### Helper lemmas: dict reads and writes -/

theorem getVal?_setVal_self (r : Row) (k v : String) :
    getVal? (setVal r k v) k = some v := by
  induction r with
  | nil => simp [setVal, getVal?]
  | cons kv rest ih =>
    by_cases h : kv.1 = k
    · simp [setVal, getVal?, h]
    · simp [setVal, getVal?, h, ih]

theorem getVal?_setVal_ne (r : Row) (k v k2 : String) (h : k2 ≠ k) :
    getVal? (setVal r k v) k2 = getVal? r k2 := by
  induction r with
  | nil => simp [setVal, getVal?, Ne.symm h]
  | cons kv rest ih =>
    obtain ⟨k0, v0⟩ := kv
    by_cases hk : k0 = k
    · have h1 : setVal ((k0, v0) :: rest) k v = (k0, v) :: rest := by
        simp [setVal, hk]
      rw [h1]
      have hne : k0 ≠ k2 := by rw [hk]; exact Ne.symm h
      simp [getVal?, hne]
    · have h1 : setVal ((k0, v0) :: rest) k v = (k0, v0) :: setVal rest k v := by
        simp [setVal, hk]
      rw [h1]
      by_cases hk2 : k0 = k2
      · simp [getVal?, hk2]
      · simp [getVal?, hk2, ih]

theorem map_eq_self_of_fix {α : Type} {f : α → α} {l : List α}
    (h : ∀ x ∈ l, f x = x) : l.map f = l := by
  induction l with
  | nil => rfl
  | cons a l ih =>
    simp only [List.map_cons, h a (List.mem_cons_self a l)]
    rw [ih (fun x hx => h x (List.mem_cons_of_mem a hx))]

theorem stripRow_idem (r : Row) : stripRow (stripRow r) = stripRow r := by
  unfold stripRow
  rw [List.map_map]
  apply List.map_congr_left
  intro kv _
  simp [Function.comp, pyStrip_idem]

/-! ### Helper lemmas: the duplicate-removal loop -/

theorem dedupGo_sublist (seen : List Row) (rows : List Row) :
    (dedupGo seen rows).Sublist rows := by
  induction rows generalizing seen with
  | nil => simp [dedupGo]
  | cons r rest ih =>
    by_cases h : sortKeyRow r ∈ seen
    · simp only [dedupGo, if_pos h]
      exact (ih seen).cons r
    · simp only [dedupGo, if_neg h]
      exact (ih (sortKeyRow r :: seen)).cons₂ r

theorem mem_of_mem_dedupGo {seen rows : List Row} {r : Row}
    (h : r ∈ dedupGo seen rows) : r ∈ rows :=
  (dedupGo_sublist seen rows).mem h

theorem foldl_dedupSpec_eq (rows : List Row) :
    ∀ (acc : List Row) (seen : List Row),
      (∀ k, k ∈ seen ↔ k ∈ acc.map sortKeyRow) →
      rows.foldl
        (fun acc r =>
          if acc.any (fun r0 => sortKeyRow r0 = sortKeyRow r) then acc else acc ++ [r])
        acc = acc ++ dedupGo seen rows := by
  induction rows with
  | nil => intro acc seen _; simp [dedupGo]
  | cons r rest ih =>
    intro acc seen hseen
    have hcond : (acc.any (fun r0 => sortKeyRow r0 = sortKeyRow r)) = true ↔
        sortKeyRow r ∈ seen := by
      constructor
      · intro hx
        obtain ⟨r0, hr0, heq⟩ := List.any_eq_true.mp hx
        exact (hseen _).mpr (List.mem_map.mpr ⟨r0, hr0, of_decide_eq_true heq⟩)
      · intro hx
        obtain ⟨r0, hr0, heq⟩ := List.mem_map.mp ((hseen _).mp hx)
        exact List.any_eq_true.mpr ⟨r0, hr0, decide_eq_true heq⟩
    by_cases h : sortKeyRow r ∈ seen
    · have hc : (acc.any (fun r0 => sortKeyRow r0 = sortKeyRow r)) = true := hcond.mpr h
      simp only [List.foldl_cons]
      rw [if_pos hc]
      simp only [dedupGo, if_pos h]
      exact ih acc seen hseen
    · have hc : ¬ (acc.any (fun r0 => sortKeyRow r0 = sortKeyRow r)) = true := by
        rw [hcond]; exact h
      have hseen2 : ∀ k, k ∈ sortKeyRow r :: seen ↔ k ∈ (acc ++ [r]).map sortKeyRow := by
        intro k
        simp only [List.mem_cons, List.map_append, List.mem_append, hseen k,
          List.map_cons, List.map_nil]
        constructor
        · rintro (hk | hk)
          · exact Or.inr (by simp [hk])
          · exact Or.inl hk
        · rintro (hk | hk)
          · exact Or.inr hk
          · simp at hk
            exact Or.inl hk
      simp only [List.foldl_cons]
      rw [if_neg hc]
      simp only [dedupGo, if_neg h]
      rw [ih (acc ++ [r]) (sortKeyRow r :: seen) hseen2]
      simp

theorem dedupStep_eq_dedupSpec (rows : List Row) : dedupStep rows = dedupSpec rows := by
  unfold dedupStep dedupSpec
  rw [foldl_dedupSpec_eq rows [] [] (by simp)]
  simp

theorem dedupGo_keys (seen : List Row) (rows : List Row) :
    (dedupGo seen rows).Pairwise (fun a b => sortKeyRow a ≠ sortKeyRow b) ∧
      ∀ r ∈ dedupGo seen rows, sortKeyRow r ∉ seen := by
  induction rows generalizing seen with
  | nil => simp [dedupGo]
  | cons r rest ih =>
    by_cases h : sortKeyRow r ∈ seen
    · simp only [dedupGo, if_pos h]
      exact ih seen
    · simp only [dedupGo, if_neg h]
      obtain ⟨hpw, hnotin⟩ := ih (sortKeyRow r :: seen)
      refine ⟨List.Pairwise.cons ?_ hpw, ?_⟩
      · intro b hb heq
        exact hnotin b hb (heq ▸ List.mem_cons_self _ _)
      · intro x hx
        rcases List.mem_cons.mp hx with hx | hx
        · subst hx; exact h
        · intro hmem
          exact hnotin x hx (List.mem_cons_of_mem _ hmem)

theorem dedupGo_eq_self (seen : List Row) (l : List Row)
    (hpw : l.Pairwise (fun a b => sortKeyRow a ≠ sortKeyRow b))
    (hfresh : ∀ r ∈ l, sortKeyRow r ∉ seen) : dedupGo seen l = l := by
  induction l generalizing seen with
  | nil => simp [dedupGo]
  | cons r rest ih =>
    have h : sortKeyRow r ∉ seen := hfresh r (List.mem_cons_self _ _)
    simp only [dedupGo, if_neg h]
    congr 1
    apply ih (sortKeyRow r :: seen) (List.Pairwise.sublist (List.sublist_cons_self r rest) hpw)
    intro x hx
    intro hmem
    rcases List.mem_cons.mp hmem with heq | hmem2
    · exact (List.pairwise_cons.mp hpw).1 x hx heq.symm
    · exact hfresh x (List.mem_cons_of_mem _ hx) hmem2

theorem dedupGo_idem (rows : List Row) :
    dedupGo [] (dedupGo [] rows) = dedupGo [] rows := by
  apply dedupGo_eq_self
  · exact (dedupGo_keys [] rows).1
  · intro r _
    simp

/-! ### Helper lemmas: the canonical row key is a permutation invariant -/

theorem charListLt_irrefl : ∀ as : List Char, charListLt as as = false := by
  intro as
  induction as with
  | nil => rfl
  | cons a as ih => simp [charListLt, charLt, ih]

theorem charListLt_trans :
    ∀ as bs cs : List Char, charListLt as bs = true → charListLt bs cs = true →
      charListLt as cs = true := by
  intro as
  induction as with
  | nil =>
    intro bs cs h1 h2
    cases cs with
    | nil =>
      cases bs with
      | nil => exact h1
      | cons b bs => simp [charListLt] at h2
    | cons c cs => simp [charListLt]
  | cons a as ih =>
    intro bs cs h1 h2
    cases bs with
    | nil => simp [charListLt] at h1
    | cons b bs =>
      cases cs with
      | nil => simp [charListLt] at h2
      | cons c cs =>
        simp only [charListLt, Bool.or_eq_true, Bool.and_eq_true, decide_eq_true_eq] at h1 h2 ⊢
        rcases h1 with h1 | ⟨h1e, h1r⟩
        · rcases h2 with h2 | ⟨h2e, _⟩
          · simp only [charLt, decide_eq_true_eq] at h1 h2 ⊢
            exact Or.inl (Nat.lt_trans h1 h2)
          · exact Or.inl (h2e ▸ h1)
        · rcases h2 with h2 | ⟨h2e, h2r⟩
          · exact Or.inl (h1e ▸ h2)
          · exact Or.inr ⟨h1e.trans h2e, ih bs cs h1r h2r⟩

theorem charListLt_eq_of_not :
    ∀ as bs : List Char, charListLt as bs = false → charListLt bs as = false → as = bs := by
  intro as
  induction as with
  | nil =>
    intro bs h1 _
    cases bs with
    | nil => rfl
    | cons b bs => simp [charListLt] at h1
  | cons a as ih =>
    intro bs h1 h2
    cases bs with
    | nil => simp [charListLt] at h2
    | cons b bs =>
      simp only [charListLt, Bool.or_eq_false_iff, Bool.and_eq_false_iff] at h1 h2
      obtain ⟨h1lt, h1r⟩ := h1
      obtain ⟨h2lt, h2r⟩ := h2
      have hab : a = b := by
        simp only [charLt, decide_eq_false_iff_not, Nat.not_lt] at h1lt h2lt
        have hn : a.toNat = b.toNat := Nat.le_antisymm h2lt h1lt
        have hc := congrArg Char.ofNat hn
        rwa [Char.ofNat_toNat, Char.ofNat_toNat] at hc
      subst hab
      rcases h1r with h1r | h1r
      · simp at h1r
      · rcases h2r with h2r | h2r
        · simp at h2r
        · rw [ih bs h1r h2r]

theorem strLt_eq_of_not {a b : String} (h1 : strLt a b = false) (h2 : strLt b a = false) :
    a = b := by
  have h := charListLt_eq_of_not a.toList b.toList h1 h2
  have h3 := congrArg String.mk h
  exact h3

theorem strLe_trans {a b c : String} (h1 : strLe a b = true) (h2 : strLe b c = true) :
    strLe a c = true := by
  simp only [strLe, Bool.or_eq_true, decide_eq_true_eq] at h1 h2 ⊢
  rcases h1 with h1 | h1
  · rcases h2 with h2 | h2
    · exact Or.inl (charListLt_trans _ _ _ h1 h2)
    · exact Or.inl (h2 ▸ h1)
  · rcases h2 with h2 | h2
    · exact Or.inl (h1 ▸ h2)
    · exact Or.inr (h1.trans h2)

theorem strLe_total (a b : String) : (strLe a b || strLe b a) = true := by
  simp only [strLe, Bool.or_eq_true, decide_eq_true_eq]
  by_cases h1 : strLt a b = true
  · exact Or.inl (Or.inl h1)
  · by_cases h2 : strLt b a = true
    · exact Or.inr (Or.inl h2)
    · exact Or.inl (Or.inr (strLt_eq_of_not (Bool.not_eq_true _ ▸ h1)
        (Bool.not_eq_true _ ▸ h2)))

theorem strLe_antisymm {a b : String} (h1 : strLe a b = true) (h2 : strLe b a = true) :
    a = b := by
  simp only [strLe, Bool.or_eq_true, decide_eq_true_eq] at h1 h2
  rcases h1 with h1 | h1
  · rcases h2 with h2 | h2
    · have := charListLt_trans _ _ _ h1 h2
      rw [charListLt_irrefl] at this
      exact absurd this (by simp)
    · exact h2.symm
  · exact h1

theorem strLt_asymm {a b : String} (h1 : strLt a b = true) : strLt b a = false := by
  by_cases h2 : strLt b a = true
  · have := charListLt_trans _ _ _ h1 h2
    rw [charListLt_irrefl] at this
    exact absurd this (by simp)
  · exact Bool.not_eq_true _ ▸ h2

theorem pairLe_trans (a b c : String × String)
    (h1 : pairLe a b = true) (h2 : pairLe b c = true) : pairLe a c = true := by
  simp only [pairLe, Bool.or_eq_true, Bool.and_eq_true, decide_eq_true_eq] at h1 h2 ⊢
  rcases h1 with h1 | ⟨h1e, h1v⟩
  · rcases h2 with h2 | ⟨h2e, _⟩
    · exact Or.inl (charListLt_trans _ _ _ h1 h2)
    · exact Or.inl (h2e ▸ h1)
  · rcases h2 with h2 | ⟨h2e, h2v⟩
    · exact Or.inl (h1e ▸ h2)
    · exact Or.inr ⟨h1e.trans h2e, strLe_trans h1v h2v⟩

theorem pairLe_total (a b : String × String) :
    (pairLe a b || pairLe b a) = true := by
  simp only [pairLe, Bool.or_eq_true, Bool.and_eq_true, decide_eq_true_eq]
  by_cases h1 : strLt a.1 b.1 = true
  · exact Or.inl (Or.inl h1)
  · by_cases h2 : strLt b.1 a.1 = true
    · exact Or.inr (Or.inl h2)
    · have he : a.1 = b.1 := strLt_eq_of_not (Bool.not_eq_true _ ▸ h1)
        (Bool.not_eq_true _ ▸ h2)
      have htot : strLe a.2 b.2 = true ∨ strLe b.2 a.2 = true := by
        simpa [Bool.or_eq_true] using strLe_total a.2 b.2
      rcases htot with hv | hv
      · exact Or.inl (Or.inr ⟨he, hv⟩)
      · exact Or.inr (Or.inr ⟨he.symm, hv⟩)

theorem pairLe_antisymm (a b : String × String)
    (h1 : pairLe a b = true) (h2 : pairLe b a = true) : a = b := by
  simp only [pairLe, Bool.or_eq_true, Bool.and_eq_true, decide_eq_true_eq] at h1 h2
  rcases h1 with h1 | ⟨h1e, h1v⟩
  · rcases h2 with h2 | ⟨h2e, _⟩
    · rw [strLt_asymm h1] at h2
      exact absurd h2 (by simp)
    · rw [h2e, strLt] at h1
      rw [charListLt_irrefl] at h1
      exact absurd h1 (by simp)
  · rcases h2 with h2 | ⟨_, h2v⟩
    · rw [h1e, strLt] at h2
      rw [charListLt_irrefl] at h2
      exact absurd h2 (by simp)
    · exact Prod.ext h1e (strLe_antisymm h1v h2v)

instance : IsAntisymm (String × String) (fun a b => pairLe a b = true) :=
  ⟨pairLe_antisymm⟩

instance : IsTotal (String × String) (fun a b => pairLe a b = true) :=
  ⟨fun a b => by simpa [Bool.or_eq_true] using pairLe_total a b⟩

instance : IsTrans (String × String) (fun a b => pairLe a b = true) :=
  ⟨pairLe_trans⟩

/-- Two rows have the same canonical duplicate-detection key exactly when one
is a permutation of the other, i.e. when they are equal as unordered
collections of (column, value) pairs. -/
theorem sortKeyRow_eq_iff_perm (r1 r2 : Row) :
    sortKeyRow r1 = sortKeyRow r2 ↔ r1.Perm r2 := by
  constructor
  · intro h
    have he : sortKeyRow r1 = sortKeyRow r2 := h
    have h1 : r1.Perm (sortKeyRow r1) :=
      (List.perm_insertionSort (fun a b => pairLe a b = true) r1).symm
    have h2 : (sortKeyRow r2).Perm r2 :=
      List.perm_insertionSort (fun a b => pairLe a b = true) r2
    exact h1.trans (he ▸ h2)
  · intro h
    have hperm : (sortKeyRow r1).Perm (sortKeyRow r2) :=
      ((List.perm_insertionSort (fun a b => pairLe a b = true) r1).trans h).trans
        (List.perm_insertionSort (fun a b => pairLe a b = true) r2).symm
    have hs1 : List.Sorted (fun a b => pairLe a b = true) (sortKeyRow r1) :=
      List.sorted_insertionSort (fun a b => pairLe a b = true) r1
    have hs2 : List.Sorted (fun a b => pairLe a b = true) (sortKeyRow r2) :=
      List.sorted_insertionSort (fun a b => pairLe a b = true) r2
    exact List.eq_of_perm_of_sorted hperm hs1 hs2

/-! ### Helper lemmas: the grouping loop of aggregate -/

theorem mergeOpt_nil (o : Option (List Rat)) : mergeOpt o [] = o := by
  cases o <;> simp [mergeOpt]

theorem mergeOpt_cons (o : Option (List Rat)) (v : Rat) (vs : List Rat) :
    mergeOpt (some ((o.getD []) ++ [v])) vs = mergeOpt o (v :: vs) := by
  cases o <;> cases vs <;> simp [mergeOpt]

theorem lookup_insertGroup_self (acc : List (String × List Rat)) (k : String) (v : Rat) :
    (insertGroup acc k v).lookup k = some (((acc.lookup k).getD []) ++ [v]) := by
  induction acc with
  | nil => simp [insertGroup, List.lookup]
  | cons kv rest ih =>
    obtain ⟨k0, vs⟩ := kv
    by_cases h : k0 = k
    · subst h
      simp [insertGroup, List.lookup]
    · have hb : (k == k0) = false := beq_eq_false_iff_ne.mpr (fun hh => h hh.symm)
      simp [insertGroup, List.lookup, h, hb, ih]

theorem lookup_insertGroup_ne (acc : List (String × List Rat)) (k k2 : String)
    (v : Rat) (h : k2 ≠ k) : (insertGroup acc k v).lookup k2 = acc.lookup k2 := by
  induction acc with
  | nil =>
    have hb : (k2 == k) = false := beq_eq_false_iff_ne.mpr h
    simp [insertGroup, List.lookup, hb]
  | cons kv rest ih =>
    obtain ⟨k0, vs⟩ := kv
    by_cases hk : k0 = k
    · subst hk
      have hb : (k2 == k0) = false := beq_eq_false_iff_ne.mpr h
      simp [insertGroup, List.lookup, hb]
    · simp [insertGroup, List.lookup, hk, ih]

theorem groupsFold_lookup (g a : String) (rows : List Row) :
    ∀ (acc : List (String × List Rat)) (k : String),
      (groupsFold g a acc rows).lookup k = mergeOpt (acc.lookup k) (parsedFor g a k rows) := by
  induction rows with
  | nil =>
    intro acc k
    simp [groupsFold, parsedFor, mergeOpt_nil]
  | cons r rest ih =>
    intro acc k
    have hstep : groupsFold g a acc (r :: rest) =
        groupsFold g a
          (match aggParse r a with
           | some v => insertGroup acc (getValD r g "") v
           | none => acc) rest := by
      simp [groupsFold]
    rw [hstep]
    cases hp : aggParse r a with
    | none =>
      rw [ih]
      have hpf : parsedFor g a k (r :: rest) = parsedFor g a k rest := by
        by_cases hk : getValD r g "" = k <;>
          simp [parsedFor, List.filter_cons, List.filterMap_cons, hk, hp]
      rw [hpf]
    | some v =>
      by_cases hk : getValD r g "" = k
      · rw [hk, ih, lookup_insertGroup_self]
        have hpf : parsedFor g a k (r :: rest) = v :: parsedFor g a k rest := by
          simp [parsedFor, List.filter_cons, List.filterMap_cons, hk, hp]
        rw [hpf, mergeOpt_cons]
      · rw [ih, lookup_insertGroup_ne _ _ _ _ (fun hh => hk hh.symm)]
        have hpf : parsedFor g a k (r :: rest) = parsedFor g a k rest := by
          simp [parsedFor, List.filter_cons, hk]
        rw [hpf]

theorem keys_insertGroup (acc : List (String × List Rat)) (k : String) (v : Rat) :
    (insertGroup acc k v).map Prod.fst =
      if k ∈ acc.map Prod.fst then acc.map Prod.fst else acc.map Prod.fst ++ [k] := by
  induction acc with
  | nil => simp [insertGroup]
  | cons kv rest ih =>
    obtain ⟨k0, vs⟩ := kv
    by_cases h : k0 = k
    · subst h
      simp [insertGroup]
    · have : ¬ k = k0 := fun hh => h hh.symm
      simp [insertGroup, h, ih, this]
      by_cases hm : k ∈ rest.map Prod.fst <;> simp [hm, this]

theorem nodup_keys_insertGroup (acc : List (String × List Rat)) (k : String) (v : Rat)
    (h : (acc.map Prod.fst).Nodup) : ((insertGroup acc k v).map Prod.fst).Nodup := by
  rw [keys_insertGroup]
  by_cases hm : k ∈ acc.map Prod.fst
  · simpa [hm] using h
  · rw [if_neg hm]
    refine List.nodup_append.mpr ⟨h, List.nodup_singleton k, ?_⟩
    intro x hx hk
    simp at hk
    exact hm (hk ▸ hx)

theorem groupsFold_nodup_keys (g a : String) (rows : List Row) :
    ∀ (acc : List (String × List Rat)), (acc.map Prod.fst).Nodup →
      ((groupsFold g a acc rows).map Prod.fst).Nodup := by
  induction rows with
  | nil => intro acc h; simpa [groupsFold] using h
  | cons r rest ih =>
    intro acc h
    have hstep : groupsFold g a acc (r :: rest) =
        groupsFold g a
          (match aggParse r a with
           | some v => insertGroup acc (getValD r g "") v
           | none => acc) rest := by
      simp [groupsFold]
    rw [hstep]
    cases hp : aggParse r a with
    | none => exact ih acc h
    | some v => exact ih _ (nodup_keys_insertGroup acc _ v h)

theorem lookup_eq_some_of_mem_nodup {l : List (String × List Rat)} {k : String}
    {vs : List Rat} (hn : (l.map Prod.fst).Nodup) (hm : (k, vs) ∈ l) :
    l.lookup k = some vs := by
  induction l with
  | nil => simp at hm
  | cons kv rest ih =>
    obtain ⟨k0, vs0⟩ := kv
    rcases List.mem_cons.mp hm with heq | hmem
    · cases heq
      simp [List.lookup]
    · have hk : k ≠ k0 := by
        intro hh
        subst hh
        have : k ∈ rest.map Prod.fst := List.mem_map.mpr ⟨(k, vs), hmem, rfl⟩
        exact (List.nodup_cons.mp (by simpa using hn)).1 this
      have hb : (k == k0) = false := beq_eq_false_iff_ne.mpr hk
      simp only [List.lookup, hb]
      exact ih (List.nodup_cons.mp (by simpa using hn)).2 hmem

theorem mem_of_lookup_eq_some {l : List (String × List Rat)} {k : String}
    {vs : List Rat} (h : l.lookup k = some vs) : (k, vs) ∈ l := by
  induction l with
  | nil => simp [List.lookup] at h
  | cons kv rest ih =>
    obtain ⟨k0, vs0⟩ := kv
    by_cases hk : k = k0
    · subst hk
      simp [List.lookup] at h
      simp [h]
    · have hb : (k == k0) = false := beq_eq_false_iff_ne.mpr hk
      simp only [List.lookup, hb] at h
      exact List.mem_cons_of_mem _ (ih h)

theorem parsedFor_length (g a k : String) (rows : List Row) :
    (parsedFor g a k rows).length =
      rows.countP (fun r => decide (getValD r g "" = k) && (aggParse r a).isSome) := by
  induction rows with
  | nil => rfl
  | cons r rest ih =>
    by_cases hk : getValD r g "" = k
    · cases hp : aggParse r a <;>
        simp [parsedFor, List.filter_cons, List.filterMap_cons, List.countP_cons, hk, hp] <;>
        simpa [parsedFor] using ih
    · simp [parsedFor, List.filter_cons, List.countP_cons, hk]
      simpa [parsedFor] using ih

/-! ### Helper lemmas: the fill-nulls fold and the pipeline decomposition -/

theorem fill_fold_fst (fills : List (String × String)) :
    ∀ st : List Row × List ChangeEntry,
      (fills.foldl
        (fun (st : List Row × List ChangeEntry) cf =>
          ((st.1.map (fillRow cf.1 cf.2)),
           if st.1.countP (fun r => pyStrip (getValD r cf.1 "") = "") > 0
           then st.2 ++ [ChangeEntry.filledNulls cf.1
              (st.1.countP (fun r => pyStrip (getValD r cf.1 "") = "")) cf.2]
           else st.2))
        st).1 = fillStep fills st.1 := by
  induction fills with
  | nil => intro st; rfl
  | cons cf fills ih =>
    intro st
    rw [List.foldl_cons, ih]
    rfl

theorem fill_fold_snd (fills : List (String × String)) :
    ∀ st : List Row × List ChangeEntry,
      (fills.foldl
        (fun (st : List Row × List ChangeEntry) cf =>
          ((st.1.map (fillRow cf.1 cf.2)),
           if st.1.countP (fun r => pyStrip (getValD r cf.1 "") = "") > 0
           then st.2 ++ [ChangeEntry.filledNulls cf.1
              (st.1.countP (fun r => pyStrip (getValD r cf.1 "") = "")) cf.2]
           else st.2))
        st).2 = st.2 ++ fillLogOf fills st.1 := by
  induction fills with
  | nil => intro st; simp [fillLogOf]
  | cons cf fills ih =>
    intro st
    rw [List.foldl_cons, ih]
    show (if st.1.countP (fun r => pyStrip (getValD r cf.1 "") = "") > 0
          then st.2 ++ [ChangeEntry.filledNulls cf.1
            (st.1.countP (fun r => pyStrip (getValD r cf.1 "") = "")) cf.2]
          else st.2) ++ fillLogOf fills (st.1.map (fillRow cf.1 cf.2)) =
        st.2 ++ fillLogOf (cf :: fills) st.1
    rw [show fillLogOf (cf :: fills) st.1 =
        (if 0 < st.1.countP (fun r => pyStrip (getValD r cf.1 "") = "")
         then [ChangeEntry.filledNulls cf.1
            (st.1.countP (fun r => pyStrip (getValD r cf.1 "") = "")) cf.2]
         else []) ++ fillLogOf fills (st.1.map (fillRow cf.1 cf.2)) from rfl]
    by_cases h : 0 < st.1.countP (fun r => pyStrip (getValD r cf.1 "") = "") <;>
      simp [h]

theorem fillLogOf_mem (fills : List (String × String)) :
    ∀ (rows : List Row) (c : String) (n : Nat) (v : String),
      ChangeEntry.filledNulls c n v ∈ fillLogOf fills rows →
        (c, v) ∈ fills ∧ 0 < n := by
  induction fills with
  | nil => intro rows c n v h; simp [fillLogOf] at h
  | cons cf fills ih =>
    intro rows c n v h
    rw [show fillLogOf (cf :: fills) rows =
        (if 0 < rows.countP (fun r => pyStrip (getValD r cf.1 "") = "")
         then [ChangeEntry.filledNulls cf.1
            (rows.countP (fun r => pyStrip (getValD r cf.1 "") = "")) cf.2]
         else []) ++ fillLogOf fills (rows.map (fillRow cf.1 cf.2)) from rfl] at h
    rcases List.mem_append.mp h with h1 | h2
    · by_cases hc : 0 < rows.countP (fun r => pyStrip (getValD r cf.1 "") = "")
      · rw [if_pos hc] at h1
        simp at h1
        obtain ⟨hcol, hn, hv⟩ := h1
        subst hcol; subst hv
        exact ⟨List.mem_cons_self _ _, hn ▸ hc⟩
      · rw [if_neg hc] at h1
        simp at h1
    · obtain ⟨hm, hp⟩ := ih _ c n v h2
      exact ⟨List.mem_cons_of_mem _ hm, hp⟩

/-- The rows clean_dataset returns are the composition of the five standalone
steps, in the source order. -/
theorem clean_rows_eq (headers : List String) (rows : List Row) (config : CleanConfig) :
    clean_dataset headers rows config =
      renameStep config.rename_columns
        (dropStep config.drop_columns
          (fillStep config.fill_nulls
            ((if config.remove_duplicates then dedupStep else id)
              ((if config.strip_whitespace then stripStep else id) rows)))) := by
  unfold clean_dataset clean_dataset_full
  simp only []
  rw [fill_fold_fst]
  by_cases h1 : config.strip_whitespace <;> by_cases h2 : config.remove_duplicates <;>
    simp [h1, h2, stripStep, dedupStep, dropStep, renameStep]

/-- The change log clean_dataset prints, in closed form. -/
theorem clean_log_eq (headers : List String) (rows : List Row) (config : CleanConfig) :
    clean_log headers rows config =
      (if config.strip_whitespace then [ChangeEntry.strippedWhitespace] else []) ++
      ((if config.remove_duplicates ∧
            0 < ((if config.strip_whitespace then stripStep rows else rows).length -
              (dedupStep (if config.strip_whitespace then stripStep rows else rows)).length)
        then [ChangeEntry.removedDuplicates
            ((if config.strip_whitespace then stripStep rows else rows).length -
              (dedupStep (if config.strip_whitespace then stripStep rows else rows)).length)]
        else []) ++
       (fillLogOf config.fill_nulls
          (if config.remove_duplicates
           then dedupStep (if config.strip_whitespace then stripStep rows else rows)
           else (if config.strip_whitespace then stripStep rows else rows)) ++
        ((if config.drop_columns ≠ [] then [ChangeEntry.droppedColumns config.drop_columns]
          else []) ++
         (if config.rename_columns ≠ [] then [ChangeEntry.renamedColumns config.rename_columns]
          else [])))) := by
  unfold clean_log clean_dataset_full
  simp only []
  rw [fill_fold_snd]
  by_cases h1 : config.strip_whitespace <;> by_cases h2 : config.remove_duplicates <;>
    by_cases h3 : config.drop_columns ≠ [] <;> by_cases h4 : config.rename_columns ≠ [] <;>
      simp [h1, h2, h3, h4, stripStep, dedupStep] <;>
      (try (split <;> simp))

/-! ### Helper lemmas: the heap-model frame property -/

theorem take_set_of_le {α : Type} (l : List α) :
    ∀ (a n : Nat) (v : α), n ≤ a → (l.set a v).take n = l.take n := by
  induction l with
  | nil => intro a n v _; simp
  | cons x l ih =>
    intro a n v h
    cases a with
    | zero =>
      have hn : n = 0 := Nat.le_zero.mp h
      subst hn
      simp
    | succ a =>
      cases n with
      | zero => simp
      | succ n =>
        simp only [List.set_cons_succ, List.take_succ_cons]
        rw [ih a n v (Nat.succ_le_succ_iff.mp h)]

theorem foldl_take_invariant {α : Type} (n : Nat) :
    ∀ (l : List α) (step : List Row → α → List Row),
      (∀ st x, x ∈ l → (step st x).take n = st.take n) →
      ∀ st : List Row, (l.foldl step st).take n = st.take n := by
  intro l
  induction l with
  | nil => intro step _ st; rfl
  | cons x l ih =>
    intro step h st
    rw [List.foldl_cons,
      ih step (fun st2 y hy => h st2 y (List.mem_cons_of_mem _ hy)) (step st x),
      h st x (List.mem_cons_self _ _)]

theorem mem_of_mem_dedupRefsGo (store : List Row) :
    ∀ (seen : List Row) (refs : List Nat) (a : Nat),
      a ∈ dedupRefsGo store seen refs → a ∈ refs := by
  intro seen refs
  induction refs generalizing seen with
  | nil => intro a h; simp [dedupRefsGo] at h
  | cons r rest ih =>
    intro a h
    by_cases hk : sortKeyRow (heapGet store r) ∈ seen
    · simp only [dedupRefsGo, if_pos hk] at h
      exact List.mem_cons_of_mem _ (ih seen a h)
    · simp only [dedupRefsGo, if_neg hk] at h
      rcases List.mem_cons.mp h with he | hm
      · exact he ▸ List.mem_cons_self _ _
      · exact List.mem_cons_of_mem _ (ih _ a hm)

theorem take_append_of_take_eq {α : Type} {l store : List α} {xs : List α}
    (h : l.take store.length = store) : (l ++ xs).take store.length = store := by
  have hlen : store.length ≤ l.length := by
    have h1 : (l.take store.length).length = store.length := by rw [h]
    rw [List.length_take] at h1
    have h2 : min store.length l.length ≤ l.length := Nat.min_le_right _ _
    rw [h1] at h2
    exact h2
  rw [List.take_append_of_le_length hlen, h]

/-! ### Helper lemmas: the fill step seen through dict reads -/

theorem fillStep_eq_map (fills : List (String × String)) :
    ∀ rows : List Row, fillStep fills rows = rows.map (fillRowAll fills) := by
  induction fills with
  | nil => intro rows; exact (map_eq_self_of_fix (fun x _ => rfl)).symm
  | cons cf fills ih =>
    intro rows
    show fillStep fills (rows.map (fillRow cf.1 cf.2)) = rows.map (fillRowAll (cf :: fills))
    rw [ih, List.map_map]
    apply List.map_congr_left
    intro r _
    rfl

theorem getVal?_fillRow_ne (c0 f0 c : String) (r : Row) (h : c ≠ c0) :
    getVal? (fillRow c0 f0 r) c = getVal? r c := by
  unfold fillRow
  split
  · exact getVal?_setVal_ne r c0 f0 c h
  · rfl

theorem fillRowAll_getVal_notmem (fills : List (String × String)) (c : String)
    (h : ∀ cf ∈ fills, cf.1 ≠ c) : ∀ r, getVal? (fillRowAll fills r) c = getVal? r c := by
  induction fills with
  | nil => intro r; rfl
  | cons cf fills ih =>
    intro r
    show getVal? (fillRowAll fills (fillRow cf.1 cf.2 r)) c = getVal? r c
    rw [ih (fun x hx => h x (List.mem_cons_of_mem _ hx)) _,
      getVal?_fillRow_ne _ _ _ _ (fun he => h cf (List.mem_cons_self _ _) he.symm)]

theorem fillRowAll_getVal (fills : List (String × String)) (c fv : String)
    (hn : (fills.map Prod.fst).Nodup) (hm : (c, fv) ∈ fills) :
    ∀ r : Row, getVal? (fillRowAll fills r) c =
      if pyStrip (getValD r c "") = "" then some fv else getVal? r c := by
  induction fills with
  | nil => simp at hm
  | cons cf fills ih =>
    obtain ⟨c0, f0⟩ := cf
    intro r
    have hn2 : (c0 :: fills.map Prod.fst).Nodup := by
      have h0 := hn
      rw [List.map_cons] at h0
      exact h0
    by_cases hc : c0 = c
    · subst hc
      have hnotin : c0 ∉ fills.map Prod.fst := (List.nodup_cons.mp hn2).1
      have hfv : fv = f0 := by
        rcases List.mem_cons.mp hm with he | hmem
        · exact (Prod.mk.inj he).2
        · exact absurd (List.mem_map.mpr ⟨(c0, fv), hmem, rfl⟩) hnotin
      subst hfv
      show getVal? (fillRowAll fills (fillRow c0 fv r)) c0 = _
      rw [fillRowAll_getVal_notmem fills c0
        (fun x hx he => hnotin (he ▸ List.mem_map.mpr ⟨x, hx, rfl⟩)) _]
      unfold fillRow
      by_cases hb : pyStrip (getValD r c0 "") = ""
      · rw [if_pos hb, if_pos hb, getVal?_setVal_self]
      · rw [if_neg hb, if_neg hb]
    · have hmem : (c, fv) ∈ fills := by
        rcases List.mem_cons.mp hm with he | hmem
        · exact absurd (Prod.mk.inj he).1.symm hc
        · exact hmem
      have htl : (fills.map Prod.fst).Nodup := (List.nodup_cons.mp hn2).2
      show getVal? (fillRowAll fills (fillRow c0 f0 r)) c = _
      rw [ih htl hmem (fillRow c0 f0 r)]
      have hg : getVal? (fillRow c0 f0 r) c = getVal? r c :=
        getVal?_fillRow_ne _ _ _ _ (fun he => hc he.symm)
      rw [show getValD (fillRow c0 f0 r) c "" = getValD r c "" from by
        unfold getValD; rw [hg]]
      rw [hg]

/-! ### Helper lemmas: arithmetic bridge for the type-inference majority -/

theorem numeric_majority_iff (c n : Nat) :
    (¬ c = 0 ∧ ((c : Rat) > (n : Rat) * 0.5)) ↔ 2 * c > n := by
  have h05 : (0.5 : Rat) = 1 / 2 := by norm_num
  constructor
  · rintro ⟨_, h⟩
    rw [h05] at h
    have h2 : (n : Rat) < 2 * (c : Rat) := by linarith
    have h3 : (n : Rat) < ((2 * c : Nat) : Rat) := by push_cast; linarith
    exact_mod_cast h3
  · intro h
    have h0 : ¬ c = 0 := by omega
    refine ⟨h0, ?_⟩
    have h2 : (n : Rat) < ((2 * c : Nat) : Rat) := by exact_mod_cast h
    rw [h05]
    push_cast at h2
    linarith

/-! ### Helper lemma: the duplicate step changes the list iff it removes rows -/

theorem dedupStep_ne_iff (l : List Row) :
    dedupStep l ≠ l ↔ 0 < l.length - (dedupStep l).length := by
  have hsub : (dedupStep l).Sublist l := dedupGo_sublist [] l
  constructor
  · intro h
    have hle : (dedupStep l).length ≤ l.length := hsub.length_le
    have hne : (dedupStep l).length ≠ l.length := fun he => h (hsub.eq_of_length he)
    omega
  · intro h he
    rw [he, Nat.sub_self] at h
    exact Nat.lt_irrefl 0 h

theorem fillLogOf_shape (fills : List (String × String)) :
    ∀ (rows : List Row) (e : ChangeEntry), e ∈ fillLogOf fills rows →
      ∃ c n v, e = ChangeEntry.filledNulls c n v := by
  induction fills with
  | nil => intro rows e h; simp [fillLogOf] at h
  | cons cf fills ih =>
    intro rows e h
    rw [show fillLogOf (cf :: fills) rows =
        (if 0 < rows.countP (fun r => pyStrip (getValD r cf.1 "") = "")
         then [ChangeEntry.filledNulls cf.1
            (rows.countP (fun r => pyStrip (getValD r cf.1 "") = "")) cf.2]
         else []) ++ fillLogOf fills (rows.map (fillRow cf.1 cf.2)) from rfl] at h
    rcases List.mem_append.mp h with h1 | h2
    · by_cases hc : 0 < rows.countP (fun r => pyStrip (getValD r cf.1 "") = "")
      · rw [if_pos hc] at h1
        simp at h1
        exact ⟨_, _, _, h1⟩
      · rw [if_neg hc] at h1
        simp at h1
    · exact ih _ e h2

/-- Membership in an optional singleton. -/
theorem mem_ite_singleton {α : Type} (c : Prop) [Decidable c] (x e : α) :
    (e ∈ (if c then [x] else [])) ↔ c ∧ e = x := by
  split <;> simp_all

/-- Full characterisation of the fill-step log: an entry for column c with
value v and count n is present exactly when (c, v) occurs at some position of
the configuration and the pass at that position — over the rows as the
earlier fills left them — found n blank cells with n positive. -/
theorem fillLogOf_mem_iff (fills : List (String × String)) :
    ∀ (rows : List Row) (c : String) (n : Nat) (v : String),
      ChangeEntry.filledNulls c n v ∈ fillLogOf fills rows ↔
        ∃ pre post, fills = pre ++ (c, v) :: post ∧
          n = (fillStep pre rows).countP (fun r => pyStrip (getValD r c "") = "") ∧
          0 < n := by
  induction fills with
  | nil =>
    intro rows c n v
    constructor
    · intro h
      simp [fillLogOf] at h
    · rintro ⟨pre, post, heq, -, -⟩
      exact absurd heq (by simp)
  | cons cf fills ih =>
    intro rows c n v
    rw [show fillLogOf (cf :: fills) rows =
        (if 0 < rows.countP (fun r => pyStrip (getValD r cf.1 "") = "")
         then [ChangeEntry.filledNulls cf.1
            (rows.countP (fun r => pyStrip (getValD r cf.1 "") = "")) cf.2]
         else []) ++ fillLogOf fills (rows.map (fillRow cf.1 cf.2)) from rfl]
    rw [List.mem_append, mem_ite_singleton, ih]
    constructor
    · rintro (⟨hpos, he⟩ | ⟨pre, post, heq, hn, hpos⟩)
      · simp only [ChangeEntry.filledNulls.injEq] at he
        obtain ⟨hc, hnn, hv⟩ := he
        subst hc
        subst hv
        subst hnn
        exact ⟨[], fills, by simp, rfl, hpos⟩
      · refine ⟨cf :: pre, post, ?_, hn, hpos⟩
        rw [heq]
        rfl
    · rintro ⟨pre, post, heq, hn, hpos⟩
      cases pre with
      | nil =>
        simp only [List.nil_append, List.cons.injEq] at heq
        obtain ⟨hcf, hfills⟩ := heq
        subst hcf
        subst hfills
        left
        exact ⟨hn ▸ hpos, by simp [hn, fillStep]⟩
      | cons cf2 pre2 =>
        simp only [List.cons_append, List.cons.injEq] at heq
        obtain ⟨hcf, hfills⟩ := heq
        subst hcf
        right
        exact ⟨pre2, post, hfills, hn, hpos⟩

/-! ### The claims -/

/-- C1: clean_dataset applies the transforms in the fixed order strip-whitespace,
then deduplicate, then fill-nulls, then drop-columns, then rename-columns, each
step consuming the previous step output; in particular, when both
fill_nulls = ("city" -> "Unknown") and rename_columns = ("city" -> "town") are
configured, the fill is applied under the original key "city" before that key is
renamed to "town" in the output rows. -/
theorem claim_C1_pipeline_order :
    (∀ (headers : List String) (rows : List Row) (config : CleanConfig),
      clean_dataset headers rows config =
        renameStep config.rename_columns
          (dropStep config.drop_columns
            (fillStep config.fill_nulls
              ((if config.remove_duplicates then dedupStep else id)
                ((if config.strip_whitespace then stripStep else id) rows))))) ∧
    clean_dataset [] [[("name", "Ann"), ("city", "")]]
        ⟨false, false, [("city", "Unknown")], [], [("city", "town")]⟩ =
      [[("name", "Ann"), ("town", "Unknown")]] := by
  refine ⟨clean_rows_eq, ?_⟩
  decide

/-- C2: profile_column labels a column numeric exactly when strictly more than
half of its non-null (non-blank) values parse as numbers after removing commas
(so an exact 50 percent split is categorical), and a value that fails parsing
still counts toward non_null and unique_count. -/
theorem claim_C2_type_inference (values : List String) (name : String) :
    ((profile_column values name).type = ColType.numeric ↔
      2 * ((values.filter nonBlank).filterMap (fun v => pyFloat? (removeCommas v))).length >
        (values.filter nonBlank).length) ∧
    ((profile_column values name).type = ColType.categorical ↔
      ¬ 2 * ((values.filter nonBlank).filterMap (fun v => pyFloat? (removeCommas v))).length >
        (values.filter nonBlank).length) ∧
    (profile_column values name).non_null = (values.filter nonBlank).length ∧
    (profile_column values name).unique_count = (values.filter nonBlank).dedup.length := by
  have htype : (profile_column values name).type =
      (if (!((values.filter nonBlank).filterMap (fun v => pyFloat? (removeCommas v))).isEmpty &&
          decide ((((values.filter nonBlank).filterMap
              (fun v => pyFloat? (removeCommas v))).length : Rat) >
            ((values.filter nonBlank).length : Rat) * 0.5))
       then ColType.numeric else ColType.categorical) := rfl
  have hbool : (!((values.filter nonBlank).filterMap (fun v => pyFloat? (removeCommas v))).isEmpty &&
      decide ((((values.filter nonBlank).filterMap
          (fun v => pyFloat? (removeCommas v))).length : Rat) >
        ((values.filter nonBlank).length : Rat) * 0.5)) = true ↔
      2 * ((values.filter nonBlank).filterMap (fun v => pyFloat? (removeCommas v))).length >
        (values.filter nonBlank).length := by
    rw [Bool.and_eq_true, Bool.not_eq_true', List.isEmpty_eq_false_iff_exists_mem]
    rw [← numeric_majority_iff]
    constructor
    · rintro ⟨⟨x, hx⟩, h2⟩
      refine ⟨?_, of_decide_eq_true h2⟩
      intro h0
      rw [List.length_eq_zero] at h0
      rw [h0] at hx
      exact absurd hx (List.not_mem_nil x)
    · rintro ⟨h0, h2⟩
      refine ⟨?_, decide_eq_true h2⟩
      rcases List.exists_mem_of_length_pos (Nat.pos_of_ne_zero h0) with ⟨x, hx⟩
      exact ⟨x, hx⟩
  refine ⟨?_, ?_, rfl, rfl⟩
  · rw [htype]
    by_cases hb : (!((values.filter nonBlank).filterMap (fun v => pyFloat? (removeCommas v))).isEmpty &&
        decide ((((values.filter nonBlank).filterMap
            (fun v => pyFloat? (removeCommas v))).length : Rat) >
          ((values.filter nonBlank).length : Rat) * 0.5)) = true
    · rw [if_pos hb]
      simp only [true_iff]
      exact hbool.mp hb
    · rw [if_neg hb]
      constructor
      · intro h; exact absurd h.symm (by simp)
      · intro h; exact absurd (hbool.mpr h) hb
  · rw [htype]
    by_cases hb : (!((values.filter nonBlank).filterMap (fun v => pyFloat? (removeCommas v))).isEmpty &&
        decide ((((values.filter nonBlank).filterMap
            (fun v => pyFloat? (removeCommas v))).length : Rat) >
          ((values.filter nonBlank).length : Rat) * 0.5)) = true
    · rw [if_pos hb]
      constructor
      · intro h; exact absurd h (by simp)
      · intro h; exact absurd (hbool.mp hb) h
    · rw [if_neg hb]
      simp only [true_iff]
      intro h
      exact absurd (hbool.mpr h) hb

/-- C4: with only strip_whitespace and remove_duplicates enabled, cleaning is
idempotent — running clean_dataset on its own output returns that output. -/
theorem claim_C4_strip_dedup_idempotent (h1 h2 : List String) (rows : List Row) :
    clean_dataset h2 (clean_dataset h1 rows ⟨true, true, [], [], []⟩)
        ⟨true, true, [], [], []⟩ =
      clean_dataset h1 rows ⟨true, true, [], [], []⟩ := by
  have hred : ∀ (hh : List String) (rs : List Row),
      clean_dataset hh rs ⟨true, true, [], [], []⟩ = dedupStep (stripStep rs) := by
    intro hh rs
    rw [clean_rows_eq]
    show renameStep [] (dropStep [] (fillStep [] (dedupStep (stripStep rs)))) = _
    rfl
  rw [hred h1 rows, hred h2 (dedupStep (stripStep rows))]
  have hfix : stripStep (dedupStep (stripStep rows)) = dedupStep (stripStep rows) := by
    apply map_eq_self_of_fix
    intro r hr
    have hr2 : r ∈ stripStep rows := mem_of_mem_dedupGo hr
    obtain ⟨y, _, hy⟩ := List.mem_map.mp hr2
    rw [← hy, stripRow_idem]
  rw [show dedupStep (stripStep (dedupStep (stripStep rows))) =
      dedupStep (dedupStep (stripStep rows)) from by rw [hfix]]
  exact dedupGo_idem _

/-- C5: with remove_duplicates enabled, clean_dataset keeps exactly the first
occurrence of each row in row order, where two rows count as duplicates exactly
when they are equal as unordered collections of (column, value) pairs; in
particular [A, B, A] cleans to [A, B]. -/
theorem claim_C5_dedup_first_occurrence :
    (∀ rows : List Row, dedupStep rows = dedupSpec rows) ∧
    (∀ (headers : List String) (rows : List Row),
        clean_dataset headers rows ⟨false, true, [], [], []⟩ = dedupSpec rows) ∧
    (∀ r1 r2 : Row, sortKeyRow r1 = sortKeyRow r2 ↔ r1.Perm r2) ∧
    clean_dataset [] [[("a", "1"), ("b", "2")], [("c", "3")], [("a", "1"), ("b", "2")]]
        ⟨false, true, [], [], []⟩ =
      [[("a", "1"), ("b", "2")], [("c", "3")]] := by
  refine ⟨dedupStep_eq_dedupSpec, ?_, sortKeyRow_eq_iff_perm, ?_⟩
  · intro headers rows
    rw [clean_rows_eq]
    show renameStep [] (dropStep [] (fillStep [] (dedupStep rows))) = _
    show dedupStep rows = _
    exact dedupStep_eq_dedupSpec rows
  · decide

/-- C8: every Column Profile satisfies null_count + non_null = total_rows, and
null_pct is the 1-decimal rounding of null_count / total_rows * 100, with
null_pct = 0 when total_rows = 0. -/
theorem claim_C8_null_invariants (values : List String) (name : String) :
    (profile_column values name).null_count + (profile_column values name).non_null =
      (profile_column values name).total_rows ∧
    (profile_column values name).null_pct =
      (if (profile_column values name).total_rows = 0 then 0
       else pyRound (((profile_column values name).null_count : Rat) /
          ((profile_column values name).total_rows : Rat) * 100) 1) := by
  constructor
  · show values.length - (values.filter nonBlank).length + (values.filter nonBlank).length =
      values.length
    exact Nat.sub_add_cancel (List.length_filter_le _ _)
  · rfl

/-- C3 as stated is false on the code: a row that lacks the value column
entirely is still included in its group, because row.get(agg_col, 0) defaults
to the number 0, which parses; here a one-row dataset with no salary key
produces an output record with count 1 although no row content parses. -/
theorem claim_C3_counterexample :
    (aggregate [[("dept", "Eng")]] "dept" "salary" "sum").map
        (fun rec => (rec.key, rec.count)) = [("Eng", 1)] ∧
    ([[("dept", "Eng")]] : List Row).countP (fun r => contentParses r "salary") = 0 := by
  constructor
  · decide
  · decide

/-- C3 amended: a row is included in its group reduction iff its value-column
entry — read with the numeric default 0 when the column is absent — parses as
a number, so a present value that fails to parse is excluded while a row
missing the column counts as 0; the count field of each output record equals
the number of rows so included, and a group key appears in the output iff some
row with that key is included. -/
theorem claim_C3_aggregate_count (rows : List Row) (g a f : String) :
    (∀ rec, rec ∈ aggregate rows g a f →
       rec.count = rows.countP
         (fun r => decide (getValD r g "" = rec.key) && (aggParse r a).isSome)) ∧
    (∀ k, (∃ rec, rec ∈ aggregate rows g a f ∧ rec.key = k) ↔
       ∃ r, r ∈ rows ∧ getValD r g "" = k ∧ (aggParse r a).isSome) := by
  have hnodup : ((groupsFold g a [] rows).map Prod.fst).Nodup :=
    groupsFold_nodup_keys g a rows [] (by simp)
  have hlook : ∀ k, (groupsFold g a [] rows).lookup k =
      mergeOpt none (parsedFor g a k rows) := by
    intro k
    have h := groupsFold_lookup g a rows [] k
    simpa [List.lookup] using h
  have hmem_iff : ∀ p : String × List Rat,
      p ∈ List.insertionSort (fun x y => strLe x.1 y.1 = true) (groupsFold g a [] rows) ↔
        p ∈ groupsFold g a [] rows := by
    intro p
    exact (List.perm_insertionSort _ _).mem_iff
  have hval : ∀ kvs : String × List Rat, kvs ∈ groupsFold g a [] rows →
      kvs.2 = parsedFor g a kvs.1 rows ∧ parsedFor g a kvs.1 rows ≠ [] := by
    intro kvs hkvs
    have hl : (groupsFold g a [] rows).lookup kvs.1 = some kvs.2 :=
      lookup_eq_some_of_mem_nodup hnodup hkvs
    rw [hlook] at hl
    cases hpf : parsedFor g a kvs.1 rows with
    | nil =>
      rw [hpf] at hl
      simp [mergeOpt] at hl
    | cons v vs =>
      rw [hpf] at hl
      have : mergeOpt none (v :: vs) = some (v :: vs) := rfl
      rw [this] at hl
      exact ⟨(Option.some.inj hl).symm ▸ rfl, by simp [hpf]⟩
  constructor
  · intro rec hrec
    simp only [aggregate, List.mem_map] at hrec
    obtain ⟨kvs, hkvs, hmk⟩ := hrec
    have hkvs2 : kvs ∈ groupsFold g a [] rows := (hmem_iff kvs).mp hkvs
    obtain ⟨hv, _⟩ := hval kvs hkvs2
    have hkey : rec.key = kvs.1 := by rw [← hmk]
    have hcount : rec.count = kvs.2.length := by rw [← hmk]
    rw [hcount, hv, hkey, parsedFor_length]
  · intro k
    constructor
    · rintro ⟨rec, hrec, hkey⟩
      simp only [aggregate, List.mem_map] at hrec
      obtain ⟨kvs, hkvs, hmk⟩ := hrec
      have hkvs2 : kvs ∈ groupsFold g a [] rows := (hmem_iff kvs).mp hkvs
      obtain ⟨hv, hne⟩ := hval kvs hkvs2
      have hk1 : kvs.1 = k := by rw [← hkey, ← hmk]
      have hpos : 0 < (parsedFor g a k rows).length := by
        rw [← hk1]
        exact List.length_pos.mpr hne
      rw [parsedFor_length] at hpos
      obtain ⟨r, hr, hp⟩ := List.countP_pos.mp hpos
      simp only [Bool.and_eq_true, decide_eq_true_eq] at hp
      exact ⟨r, hr, hp.1, hp.2⟩
    · rintro ⟨r, hr, hkey, hparse⟩
      have hpred : (fun r => decide (getValD r g "" = k) && (aggParse r a).isSome) r = true := by
        rw [Bool.and_eq_true]
        exact ⟨decide_eq_true hkey, hparse⟩
      have hpos : 0 < rows.countP
          (fun r => decide (getValD r g "" = k) && (aggParse r a).isSome) :=
        List.countP_pos.mpr ⟨r, hr, hpred⟩
      rw [← parsedFor_length] at hpos
      cases hpf : parsedFor g a k rows with
      | nil => rw [hpf] at hpos; simp at hpos
      | cons v vs =>
        have hl : (groupsFold g a [] rows).lookup k = some (v :: vs) := by
          rw [hlook, hpf]
          rfl
        have hmem : (k, v :: vs) ∈ groupsFold g a [] rows := mem_of_lookup_eq_some hl
        refine ⟨AggRecord.mk k (f ++ "_" ++ a)
          (pyRound (applyReducer f (v :: vs)) 2) (v :: vs).length, ?_, rfl⟩
        simp only [aggregate, List.mem_map]
        exact ⟨(k, v :: vs), (hmem_iff (k, v :: vs)).mpr hmem, rfl⟩

/-- Witness for C3: in the two-row Eng dataset with salaries "95000" and
"n/a", the output group key Eng exists, its count is 1, and exactly one row is
counted. -/
theorem claim_C3_aggregate_count_witness :
    (∃ rec, rec ∈ aggregate
        [[("dept", "Eng"), ("salary", "95000")], [("dept", "Eng"), ("salary", "n/a")]]
        "dept" "salary" "sum" ∧ rec.key = "Eng") ∧
    ([[("dept", "Eng"), ("salary", "95000")], [("dept", "Eng"), ("salary", "n/a")]] :
        List Row).countP
      (fun r => decide (getValD r "dept" "" = "Eng") && (aggParse r "salary").isSome) = 1 := by
  constructor
  · exact ((claim_C3_aggregate_count
      [[("dept", "Eng"), ("salary", "95000")], [("dept", "Eng"), ("salary", "n/a")]]
      "dept" "salary" "sum").2 "Eng").mpr
      ⟨[("dept", "Eng"), ("salary", "95000")], by decide, by decide, by decide⟩
  · decide

/-- C6 as stated is false on the code: a configured drop_columns step logs
unconditionally even when it changes nothing — here dropping the absent column
z leaves the rows unchanged yet produces a log entry (strip is disabled). -/
theorem claim_C6_counterexample :
    clean_dataset_full [] [[("a", "1")]] ⟨false, false, [], ["z"], []⟩ =
      ([[("a", "1")]], [ChangeEntry.droppedColumns ["z"]]) := by
  decide

/-- C6 amended: the log contains the strip entry iff strip_whitespace is
enabled (regardless of effect); a dedup entry iff dedup is enabled and the
step actually removed rows, recording the number removed; a fill entry for a
configured column exactly when its pass — over the rows as the earlier fills
left them — filled at least one cell, recording that count; and drop/rename
entries iff the respective option is configured non-empty, regardless of
whether any row changed. -/
theorem claim_C6_change_log (headers : List String) (rows : List Row)
    (config : CleanConfig) :
    (ChangeEntry.strippedWhitespace ∈ clean_log headers rows config ↔
      config.strip_whitespace = true) ∧
    (∀ n, ChangeEntry.removedDuplicates n ∈ clean_log headers rows config ↔
      config.remove_duplicates = true ∧
        dedupStep (if config.strip_whitespace then stripStep rows else rows) ≠
          (if config.strip_whitespace then stripStep rows else rows) ∧
        n = (if config.strip_whitespace then stripStep rows else rows).length -
          (dedupStep (if config.strip_whitespace then stripStep rows else rows)).length) ∧
    (∀ c n v, ChangeEntry.filledNulls c n v ∈ clean_log headers rows config ↔
      ∃ pre post, config.fill_nulls = pre ++ (c, v) :: post ∧
        n = (fillStep pre
            (if config.remove_duplicates
             then dedupStep (if config.strip_whitespace then stripStep rows else rows)
             else (if config.strip_whitespace then stripStep rows else rows))).countP
          (fun r => pyStrip (getValD r c "") = "") ∧
        0 < n) ∧
    (∀ ds, ChangeEntry.droppedColumns ds ∈ clean_log headers rows config ↔
      config.drop_columns = ds ∧ ds ≠ []) ∧
    (∀ m, ChangeEntry.renamedColumns m ∈ clean_log headers rows config ↔
      config.rename_columns = m ∧ m ≠ []) := by
  rw [clean_log_eq]
  set s1 := if config.strip_whitespace then stripStep rows else rows with hs1
  set s2 := if config.remove_duplicates then dedupStep s1 else s1 with hs2
  refine ⟨?_, ?_, ?_, ?_, ?_⟩
  · simp only [List.mem_append, mem_ite_singleton]
    constructor
    · rintro (h | h | h | h | h)
      · exact h.1
      · exact absurd h.2 (by simp)
      · obtain ⟨c, n, v, he⟩ := fillLogOf_shape _ _ _ h
        exact absurd he (by simp)
      · exact absurd h.2 (by simp)
      · exact absurd h.2 (by simp)
    · intro h
      exact Or.inl ⟨h, by simp⟩
  · intro n
    simp only [List.mem_append, mem_ite_singleton]
    constructor
    · rintro (h | h | h | h | h)
      · exact absurd h.2 (by simp)
      · obtain ⟨⟨hd, hpos⟩, he⟩ := h
        have hn : n = s1.length - (dedupStep s1).length := by
          have h2 := he
          simp at h2
          exact h2
        exact ⟨hd, (dedupStep_ne_iff s1).mpr hpos, hn⟩
      · obtain ⟨c, n2, v, he⟩ := fillLogOf_shape _ _ _ h
        exact absurd he (by simp)
      · exact absurd h.2 (by simp)
      · exact absurd h.2 (by simp)
    · rintro ⟨hd, hne, hn⟩
      refine Or.inr (Or.inl ⟨⟨hd, ?_⟩, by simp [hn]⟩)
      exact (dedupStep_ne_iff s1).mp hne
  · intro c n v
    simp only [List.mem_append, mem_ite_singleton]
    constructor
    · rintro (h | h | h | h | h)
      · exact absurd h.2 (by simp)
      · exact absurd h.2 (by simp)
      · exact (fillLogOf_mem_iff _ _ _ _ _).mp h
      · exact absurd h.2 (by simp)
      · exact absurd h.2 (by simp)
    · intro h
      exact Or.inr (Or.inr (Or.inl ((fillLogOf_mem_iff _ _ _ _ _).mpr h)))
  · intro ds
    simp only [List.mem_append, mem_ite_singleton]
    constructor
    · rintro (h | h | h | h | h)
      · exact absurd h.2 (by simp)
      · exact absurd h.2 (by simp)
      · obtain ⟨c, n, v, he⟩ := fillLogOf_shape _ _ _ h
        exact absurd he (by simp)
      · obtain ⟨hne, he⟩ := h
        simp at he
        exact ⟨he.symm, he ▸ hne⟩
      · exact absurd h.2 (by simp)
    · rintro ⟨he, hne⟩
      exact Or.inr (Or.inr (Or.inr (Or.inl ⟨he ▸ hne, by simp [he]⟩)))
  · intro m
    simp only [List.mem_append, mem_ite_singleton]
    constructor
    · rintro (h | h | h | h | h)
      · exact absurd h.2 (by simp)
      · exact absurd h.2 (by simp)
      · obtain ⟨c, n, v, he⟩ := fillLogOf_shape _ _ _ h
        exact absurd he (by simp)
      · exact absurd h.2 (by simp)
      · obtain ⟨hne, he⟩ := h
        simp at he
        exact ⟨he.symm, he ▸ hne⟩
    · rintro ⟨he, hne⟩
      exact Or.inr (Or.inr (Or.inr (Or.inr ⟨he ▸ hne, by simp [he]⟩)))

/-- Witness for C6: a drop-columns configuration on an absent column logs its
entry even though no row changed. -/
theorem claim_C6_change_log_witness :
    ChangeEntry.droppedColumns ["z"] ∈
      clean_log [] [[("a", "1")]] ⟨false, false, [], ["z"], []⟩ := by
  exact ((claim_C6_change_log [] [[("a", "1")]]
    ⟨false, false, [], ["z"], []⟩).2.2.2.1 ["z"]).mpr ⟨rfl, by decide⟩

/-- C7: with fill_nulls configured, clean_dataset replaces a row value for a
configured column with the fill value exactly when that value is absent or
blank after trimming, and leaves non-blank cells unchanged. -/
theorem claim_C7_fill_nulls (fills : List (String × String)) (c fv : String)
    (hn : (fills.map Prod.fst).Nodup) (hm : (c, fv) ∈ fills) :
    (∀ (headers : List String) (rows : List Row),
        clean_dataset headers rows ⟨false, false, fills, [], []⟩ =
          rows.map (fillRowAll fills)) ∧
    (∀ r : Row, getVal? (fillRowAll fills r) c =
        if pyStrip (getValD r c "") = "" then some fv else getVal? r c) := by
  constructor
  · intro headers rows
    rw [clean_rows_eq]
    show fillStep fills rows = _
    exact fillStep_eq_map fills rows
  · exact fillRowAll_getVal fills c fv hn hm

/-- Witness for C7: filling city with Unknown maps ["NYC", "", "  "] to
["NYC", "Unknown", "Unknown"]. -/
theorem claim_C7_fill_nulls_witness :
    ([("city", "Unknown")].map Prod.fst).Nodup ∧
    getVal? (fillRowAll [("city", "Unknown")] [("city", "  ")]) "city" = some "Unknown" ∧
    clean_dataset [] [[("city", "NYC")], [("city", "")], [("city", "  ")]]
        ⟨false, false, [("city", "Unknown")], [], []⟩ =
      [[("city", "NYC")], [("city", "Unknown")], [("city", "Unknown")]] := by
  refine ⟨by decide, ?_, ?_⟩
  · have h := (claim_C7_fill_nulls [("city", "Unknown")] "city" "Unknown"
      (by decide) (by decide)).2 [("city", "  ")]
    rw [h]
    decide
  · have h := (claim_C7_fill_nulls [("city", "Unknown")] "city" "Unknown"
      (by decide) (by decide)).1 [] [[("city", "NYC")], [("city", "")], [("city", "  ")]]
    rw [h]
    decide

/-- C9: an unrecognized reducer selector makes aggregate fall back to sum
(same group keys, reduced values and counts as with "sum"), while an
unrecognized format selector makes save_dataset signal an error; the two
configuration errors are handled asymmetrically (known formats succeed). -/
theorem claim_C9_error_asymmetry :
    (∀ (rows : List Row) (g a f : String),
        f ≠ "sum" → f ≠ "mean" → f ≠ "count" → f ≠ "min" → f ≠ "max" →
        (aggregate rows g a f).map (fun rec => (rec.key, rec.value, rec.count)) =
          (aggregate rows g a "sum").map (fun rec => (rec.key, rec.value, rec.count))) ∧
    (∀ (records : List Row) (format : String),
        format ≠ "jsonl" → format ≠ "json" →
        save_dataset records format = Except.error ("Unknown format: " ++ format)) ∧
    (∀ records : List Row,
        save_dataset records "jsonl" = Except.ok (records.map dumpsRecord) ∧
        save_dataset records "json" = Except.ok [dumpsArray records]) := by
  refine ⟨?_, ?_, ?_⟩
  · intro rows g a f h1 h2 h3 h4 h5
    simp only [aggregate, List.map_map]
    apply List.map_congr_left
    intro kvs _
    simp only [Function.comp]
    have hred : applyReducer f kvs.2 = applyReducer "sum" kvs.2 := by
      unfold applyReducer
      rw [if_neg h1, if_neg h2, if_neg h3, if_neg h4, if_neg h5, if_pos rfl]
    rw [hred]
  · intro records format h1 h2
    unfold save_dataset
    rw [if_neg h1, if_neg h2]
  · intro records
    exact ⟨rfl, rfl⟩

/-- Witness for C9: the unrecognized reducer median reduces like sum, and the
unrecognized format xml is a signaled error. -/
theorem claim_C9_error_asymmetry_witness :
    (aggregate [[("d", "A"), ("v", "2")]] "d" "v" "median").map
        (fun rec => (rec.key, rec.value, rec.count)) =
      (aggregate [[("d", "A"), ("v", "2")]] "d" "v" "sum").map
        (fun rec => (rec.key, rec.value, rec.count)) ∧
    save_dataset [] "xml" = Except.error ("Unknown format: " ++ "xml") := by
  constructor
  · exact claim_C9_error_asymmetry.1 [[("d", "A"), ("v", "2")]] "d" "v" "median"
      (by decide) (by decide) (by decide) (by decide) (by decide)
  · exact claim_C9_error_asymmetry.2.1 [] "xml" (by decide) (by decide)

/-- C10: clean_dataset never mutates the rows it is given.  In the heap model
every write of the pipeline targets the fresh cells allocated by the initial
`[dict(row) for row in rows]` copy (or appends new cells), so after a run the
original segment of the store is unchanged; the read-only profile_dataset and
aggregate are embedded as pure functions of the rows, which by construction
return without touching them. -/
theorem claim_C10_no_input_mutation (store : List Row) (refs : List Nat)
    (config : CleanConfig) :
    (clean_dataset_heap store refs config).1.take store.length = store := by
  have hb1 : ∀ x ∈ (heapCopy store refs).2, store.length ≤ x := by
    intro x hx
    simp only [heapCopy, heapAlloc, List.mem_map, List.mem_range] at hx
    obtain ⟨i, _, hi⟩ := hx
    omega
  have h1 : (heapCopy store refs).1.take store.length = store := by
    simp only [heapCopy, heapAlloc]
    exact List.take_left store _
  have h2 : (heapStrip config.strip_whitespace (heapCopy store refs).1
      (heapCopy store refs).2).take store.length = store := by
    unfold heapStrip
    split
    · rw [foldl_take_invariant store.length _ _
        (fun st2 x hx => take_set_of_le _ _ _ _ (hb1 x hx)) _]
      exact h1
    · exact h1
  have hb2 : ∀ x ∈ heapDedup config.remove_duplicates
      (heapStrip config.strip_whitespace (heapCopy store refs).1 (heapCopy store refs).2)
      (heapCopy store refs).2, store.length ≤ x := by
    intro x hx
    unfold heapDedup at hx
    split at hx
    · exact hb1 x (mem_of_mem_dedupRefsGo _ _ _ _ hx)
    · exact hb1 x hx
  have h3 : (heapFill config.fill_nulls
      (heapStrip config.strip_whitespace (heapCopy store refs).1 (heapCopy store refs).2)
      (heapDedup config.remove_duplicates
        (heapStrip config.strip_whitespace (heapCopy store refs).1 (heapCopy store refs).2)
        (heapCopy store refs).2)).take store.length = store := by
    unfold heapFill
    rw [foldl_take_invariant store.length _ _ ?pre _]
    · exact h2
    case pre =>
      intro st cf _
      rw [foldl_take_invariant store.length _ _ ?inner st]
      case inner =>
        intro st2 a ha
        show (if pyStrip (getValD (heapGet st2 a) cf.1 "") = ""
            then st2.set a (setVal (heapGet st2 a) cf.1 cf.2) else st2).take store.length =
          st2.take store.length
        split
        · exact take_set_of_le _ _ _ _ (hb2 a ha)
        · rfl
  have h4 : ((heapDrop config.drop_columns
      (heapFill config.fill_nulls
        (heapStrip config.strip_whitespace (heapCopy store refs).1 (heapCopy store refs).2)
        (heapDedup config.remove_duplicates
          (heapStrip config.strip_whitespace (heapCopy store refs).1 (heapCopy store refs).2)
          (heapCopy store refs).2))
      (heapDedup config.remove_duplicates
        (heapStrip config.strip_whitespace (heapCopy store refs).1 (heapCopy store refs).2)
        (heapCopy store refs).2)).1).take store.length = store := by
    unfold heapDrop
    split
    · simp only [heapAlloc]
      exact take_append_of_take_eq h3
    · exact h3
  show ((heapRename config.rename_columns _ _).1).take store.length = store
  unfold heapRename
  split
  · simp only [heapAlloc]
    exact take_append_of_take_eq h4
  · exact h4

end DataPipeline
